import Mathlib

/-!
# Verification of the SEO Log Analyzer frontend pipeline

A shallow embedding of the frontend sources of the Seo-Log-Analyzer
repository (the API client `frontend/src/lib/api.ts`, the pages
`Compare.tsx`, `Import.tsx`, `Pages`, `OrphanPages`) together with
spec-derived models of the backend computations that are not part of the
frontend sources.  JavaScript strings are modelled as `List Char`,
JavaScript numbers used as integers as `Int`/`Nat`, and the in-memory
`Map` cache as an association list.
-/

namespace SeoLog

/-! ## String primitives (JS `startsWith`, `includes`, `toLowerCase`) -/

/-- Embedding of JS `hay.startsWith(needle)` on char lists. -/
def charsStarts : List Char → List Char → Bool
  | [], _ => true
  | _ :: _, [] => false
  | a :: as, b :: bs => a == b && charsStarts as bs

/-- Embedding of JS `hay.includes(needle)` on char lists. -/
def charsContains : List Char → List Char → Bool
  | [], needle => needle.isEmpty
  | c :: rest, needle => charsStarts needle (c :: rest) || charsContains rest needle

/-- JS `toLowerCase`, character by character. -/
def toLowerChars (s : List Char) : List Char := s.map Char.toLower

theorem charsStarts_self_append (a b : List Char) : charsStarts a (a ++ b) = true := by
  induction a with
  | nil => rfl
  | cons c cs ih => simp [charsStarts, ih]

theorem charsStarts_of_append {a b s : List Char}
    (h : charsStarts (a ++ b) s = true) : charsStarts a s = true := by
  induction a generalizing s with
  | nil => rfl
  | cons c cs ih =>
    cases s with
    | nil => simp [charsStarts] at h
    | cons d ds =>
      simp only [List.cons_append, charsStarts, Bool.and_eq_true] at h ⊢
      exact ⟨h.1, ih h.2⟩

theorem charsStarts_append_right {n p : List Char} (s : List Char)
    (h : charsStarts n p = true) : charsStarts n (p ++ s) = true := by
  induction n generalizing p with
  | nil => rfl
  | cons c cs ih =>
    cases p with
    | nil => simp [charsStarts] at h
    | cons d ds =>
      simp only [charsStarts, Bool.and_eq_true] at h
      simp only [List.cons_append, charsStarts, Bool.and_eq_true]
      exact ⟨h.1, ih h.2⟩

theorem charsStarts_append_of_le {n p : List Char} (s : List Char)
    (h : n.length ≤ p.length) : charsStarts n (p ++ s) = charsStarts n p := by
  induction n generalizing p with
  | nil => rfl
  | cons c cs ih =>
    cases p with
    | nil => simp at h
    | cons d ds =>
      simp only [List.length_cons, Nat.succ_le_succ_iff] at h
      show (c == d && charsStarts cs (ds ++ s)) = (c == d && charsStarts cs ds)
      rw [ih h]

theorem charsContains_nil_needle (hay : List Char) : charsContains hay [] = true := by
  cases hay with
  | nil => rfl
  | cons c rest => simp [charsContains, charsStarts]

/-! ## Orphan-pages search filter (`OrphanPages`, first variant of part_001)

The component keeps the loaded list in `pages` and recomputes
`filteredPages` whenever `search` or `pages` changes:

    if (search) {
      setFilteredPages(pages.filter((p) =>
        p.url.toLowerCase().includes(search.toLowerCase())));
    } else {
      setFilteredPages(pages);
    }
-/

/-- One entry of the orphan-pages listing (`OrphanPage` in api.ts). -/
structure OrphanPage where
  url : String
  crawl_count : Nat
  last_crawl : Option String
  deriving DecidableEq, Repr

/-- The `filteredPages` state computed by the search effect of the
orphan-pages view (first variant of part_001, lines 30-36). -/
def filterOrphanPages (pages : List OrphanPage) (search : String) : List OrphanPage :=
  if search = "" then pages
  else pages.filter fun p =>
    charsContains (toLowerChars p.url.data) (toLowerChars search.data)

/-- C7: the displayed filtered list is an order-preserving sublist of the
loaded list containing exactly the pages whose url contains the search
string case-insensitively; an empty search displays the whole list. -/
theorem orphan_filter_spec (pages : List OrphanPage) (search : String) :
    List.Sublist (filterOrphanPages pages search) pages ∧
    (∀ p, p ∈ filterOrphanPages pages search ↔
      p ∈ pages ∧
        charsContains (toLowerChars p.url.data) (toLowerChars search.data) = true) ∧
    (search = "" → filterOrphanPages pages search = pages) := by
  refine ⟨?_, ?_, ?_⟩
  · unfold filterOrphanPages
    split
    · exact List.Sublist.refl pages
    · exact List.filter_sublist pages
  · intro p
    unfold filterOrphanPages
    split
    · rename_i hs
      subst hs
      simp [toLowerChars, charsContains_nil_needle]
    · exact List.mem_filter
  · intro hs
    simp [filterOrphanPages, hs]

/-- Witness for `orphan_filter_spec` at a concrete list and search string. -/
theorem orphan_filter_spec_witness :
    filterOrphanPages
      [⟨"/Blog/a", 3, none⟩, ⟨"/shop", 1, none⟩] "blog" =
      [⟨"/Blog/a", 3, none⟩] ∧
    filterOrphanPages [⟨"/Blog/a", 3, none⟩, ⟨"/shop", 1, none⟩] "" =
      [⟨"/Blog/a", 3, none⟩, ⟨"/shop", 1, none⟩] := by
  constructor
  · decide
  · exact (orphan_filter_spec [⟨"/Blog/a", 3, none⟩, ⟨"/shop", 1, none⟩] "").2.2 rfl

/-! ## `buildFullUrl` (`Pages`, second variant of part_003, lines 239-245)

    function buildFullUrl(path: string, domain?: string): string {
      if (!domain) return path;
      if (path.startsWith("http://") || path.startsWith("https://")) return path;
      const cleanDomain = domain.replace(/\/+$/, '');
      const prefix = cleanDomain.startsWith("http") ? cleanDomain : `https://` + cleanDomain;
      return `${prefix}${path}`;
    }
-/

/-- JS `domain.replace(/\/+$/, '')`: strip all trailing slashes. -/
def dropTrailingSlashes (s : List Char) : List Char :=
  (s.reverse.dropWhile (fun c => c == '/')).reverse

/-- The function `buildFullUrl` of the Pages component.  `domain = none` models the JS
`undefined` argument; the empty string is also falsy in `!domain`. -/
def buildFullUrl (path : List Char) (domain : Option (List Char)) : List Char :=
  match domain with
  | none => path
  | some d =>
    if d.isEmpty then path
    else if charsStarts ("http://".data) path || charsStarts ("https://".data) path then path
    else
      let cleanDomain := dropTrailingSlashes d
      let pfx := if charsStarts ("http".data) cleanDomain then cleanDomain
                 else ("https://".data) ++ cleanDomain
      pfx ++ path

/-- C8 counterexample: for the domain `"httpx"` (which starts with `"http"`
but is not scheme-prefixed) `buildFullUrl` is not idempotent — the second
application prepends the domain again. -/
theorem buildFullUrl_not_idempotent :
    buildFullUrl (buildFullUrl ("/a".data) (some ("httpx".data))) (some ("httpx".data)) ≠
      buildFullUrl ("/a".data) (some ("httpx".data)) := by decide

/-- C8 amended: `buildFullUrl` is idempotent whenever the domain, after
stripping trailing slashes, starts with `"http://"` or `"https://"` or does
not start with `"http"` at all (a domain such as `"httpx"` that starts with
`"http"` without being a full URL breaks idempotence); a path already
starting with `"http://"` or `"https://"` is returned unchanged for any
domain, and any path is returned unchanged when the domain is undefined. -/
theorem buildFullUrl_amended (path : List Char) (domain : Option (List Char)) :
    (∀ d, domain = some d →
      (charsStarts ("http://".data) (dropTrailingSlashes d) = true ∨
       charsStarts ("https://".data) (dropTrailingSlashes d) = true ∨
       charsStarts ("http".data) (dropTrailingSlashes d) = false) →
      buildFullUrl (buildFullUrl path domain) domain = buildFullUrl path domain) ∧
    (charsStarts ("http://".data) path = true ∨ charsStarts ("https://".data) path = true →
      buildFullUrl path domain = path) ∧
    buildFullUrl path none = path := by
  have habs : ∀ (p : List Char) (q : Option (List Char)),
      (charsStarts ("http://".data) p = true ∨ charsStarts ("https://".data) p = true) →
      buildFullUrl p q = p := by
    intro p q hp
    cases q with
    | none => rfl
    | some d =>
      unfold buildFullUrl
      rcases hp with hp | hp <;> simp [hp]
  refine ⟨?_, habs path domain, rfl⟩
  intro d hd hcond
  subst hd
  by_cases hde : d.isEmpty
  · simp [buildFullUrl, hde]
  · by_cases hp : charsStarts ("http://".data) path = true ∨
        charsStarts ("https://".data) path = true
    · rw [habs path (some d) hp]
      exact habs path (some d) hp
    · have hinner : buildFullUrl path (some d) =
          (if charsStarts ("http".data) (dropTrailingSlashes d) then dropTrailingSlashes d
           else ("https://".data) ++ dropTrailingSlashes d) ++ path := by
        push_neg at hp
        simp [buildFullUrl, hde, hp.1, hp.2]
      rw [hinner]
      apply habs
      rcases hcond with hc | hc | hc
      · have hhttp : charsStarts ("http".data) (dropTrailingSlashes d) = true := by
          have : ("http".data ++ "://".data : List Char) = "http://".data := by decide
          exact charsStarts_of_append (this ▸ hc)
        left
        rw [if_pos hhttp]
        exact charsStarts_append_right path hc
      · have hhttp : charsStarts ("http".data) (dropTrailingSlashes d) = true := by
          have : ("http".data ++ "s://".data : List Char) = "https://".data := by decide
          exact charsStarts_of_append (this ▸ hc)
        right
        rw [if_pos hhttp]
        exact charsStarts_append_right path hc
      · right
        rw [if_neg (by simp [hc]), List.append_assoc]
        exact charsStarts_self_append _ _

/-- Witness for `buildFullUrl_amended` at a concrete path and domain. -/
theorem buildFullUrl_amended_witness :
    buildFullUrl (buildFullUrl ("/a".data) (some ("example.com/".data)))
        (some ("example.com/".data)) =
      buildFullUrl ("/a".data) (some ("example.com/".data)) ∧
    buildFullUrl ("https://x/a".data) (some ("example.com/".data)) = "https://x/a".data ∧
    buildFullUrl ("/a".data) none = "/a".data := by
  refine ⟨?_, ?_, ?_⟩
  · exact (buildFullUrl_amended ("/a".data) (some ("example.com/".data))).1
      "example.com/".data rfl (by right; right; decide)
  · exact (buildFullUrl_amended ("https://x/a".data) (some ("example.com/".data))).2.1
      (by right; decide)
  · exact (buildFullUrl_amended ("/a".data) none).2.2

/-! ## The in-memory read cache (`api.ts`, second variant, lines 203-278)

`_cache` is a JS `Map<string, { data, timestamp }>`; we model it as an
association list with unique keys (keys are char lists, cached payloads are
opaque and modelled as `Nat`).
-/

/-- One `_cache` entry: `{ data: unknown; timestamp: number }`. -/
structure CacheEntry where
  data : Nat
  timestamp : Nat
  deriving DecidableEq, Repr

/-- The `_cache` map. -/
abbrev Cache := List (List Char × CacheEntry)

/-- JS `Map.get`. -/
def mapGet (m : Cache) (k : List Char) : Option CacheEntry :=
  (m.find? (fun kv => kv.1 == k)).map (·.2)

/-- JS `Map.delete`. -/
def mapDelete (m : Cache) (k : List Char) : Cache :=
  m.filter (fun kv => !(kv.1 == k))

/-- JS `Map.set`: replace in place, or append a fresh binding. -/
def mapSet : Cache → List Char → CacheEntry → Cache
  | [], k, v => [(k, v)]
  | kv :: rest, k, v =>
    if kv.1 == k then (kv.1, v) :: rest else kv :: mapSet rest k v

/-- The constant `CACHE_TTL = 60_000` milliseconds. -/
def CACHE_TTL : Nat := 60000

/-- The function `getCached` from api.ts: return the data of the entry if it is younger than
`CACHE_TTL`, otherwise delete the entry and return `none`.  `now` is the
value of `Date.now()` at the call. -/
def getCached (m : Cache) (now : Nat) (key : List Char) : Option Nat × Cache :=
  match mapGet m key with
  | some e => if now - e.timestamp < CACHE_TTL then (some e.data, m)
              else (none, mapDelete m key)
  | none => (none, mapDelete m key)

/-- The function `setCache` from api.ts. -/
def setCache (m : Cache) (now : Nat) (key : List Char) (d : Nat) : Cache :=
  mapSet m key ⟨d, now⟩

/-- The function `invalidateCache` from api.ts: with a given argument, delete every key starting
with it; with no argument, clear the whole map. -/
def invalidateCache (pfx : Option (List Char)) (m : Cache) : Cache :=
  match pfx with
  | some p => m.filter (fun kv => !(charsStarts p kv.1))
  | none => []

/-- Outcome of one `fetchApi` call: the returned payload, whether it was
served from the cache (the early-return branch), and the cache afterwards. -/
structure FetchOut where
  data : Nat
  fromCache : Bool
  cache : Cache
  deriving DecidableEq, Repr

/-- JS logic of `options?.method`: a GET is a missing method or the method "GET". -/
def isGetMethod (method : Option String) : Bool :=
  method.isNone || method == some ("GET")

/-- The cache behaviour of `fetchApi` (api.ts second variant, lines
235-266) for a call whose network round-trip succeeds with payload
`networkData`: GET requests consult `getCached` first and store a
successful response via `setCache`; non-GET requests bypass the cache
entirely. -/
def fetchApiCached (m : Cache) (now : Nat) (endpoint : List Char)
    (get : Bool) (networkData : Nat) : FetchOut :=
  if get then
    match getCached m now endpoint with
    | (some d, m') => ⟨d, true, m'⟩
    | (none, m') => ⟨networkData, false, setCache m' now endpoint networkData⟩
  else ⟨networkData, false, m⟩

theorem mapGet_filter (q : List Char → Bool) (m : Cache) (k : List Char) :
    mapGet (m.filter (fun kv => q kv.1)) k = if q k then mapGet m k else none := by
  induction m with
  | nil => simp [mapGet]
  | cons kv rest ih =>
    by_cases hq : q kv.1
    · by_cases hk : kv.1 == k
      · have : q k = true := by rwa [beq_iff_eq.mp hk] at hq
        simp [mapGet, List.find?, hq, hk, this]
      · simp only [List.filter_cons, hq, if_true]
        simp only [mapGet, List.find?, hk] at ih ⊢
        exact ih
    · by_cases hk : kv.1 == k
      · have : q k = false := by
          rw [← beq_iff_eq.mp hk]; exact Bool.eq_false_iff.mpr (fun hc => hq (by simp [hc]))
        simp only [List.filter_cons, hq, if_false, Bool.false_eq_true]
        rw [ih, this]
        simp
      · simp only [List.filter_cons, hq, Bool.false_eq_true, if_false]
        simp only [mapGet, List.find?, hk] at ih ⊢
        exact ih

/-- C9: `invalidateCache prefix` removes exactly the entries whose key
starts with the prefix, leaving every other entry (data and timestamp)
untouched, and `invalidateCache` with no argument empties the cache. -/
theorem invalidateCache_spec (p : List Char) (m : Cache) (k : List Char) :
    (mapGet (invalidateCache (some p) m) k =
      if charsStarts p k then none else mapGet m k) ∧
    invalidateCache none m = [] := by
  constructor
  · have := mapGet_filter (fun key => !(charsStarts p key)) m k
    simp only [invalidateCache]
    rw [this]
    by_cases h : charsStarts p k <;> simp [h]
  · rfl

theorem mapGet_mapSet_self (m : Cache) (k : List Char) (v : CacheEntry) :
    mapGet (mapSet m k v) k = some v := by
  induction m with
  | nil => simp [mapSet, mapGet, List.find?]
  | cons kv rest ih =>
    by_cases hk : kv.1 == k
    · simp [mapSet, hk, mapGet, List.find?]
    · simp only [mapSet, hk, Bool.false_eq_true, if_false]
      simp only [mapGet, List.find?, hk] at ih ⊢
      exact ih

theorem mapGet_mapSet_ne (m : Cache) (k : List Char) (v : CacheEntry)
    (k' : List Char) (h : k' ≠ k) : mapGet (mapSet m k v) k' = mapGet m k' := by
  induction m with
  | nil =>
    have : (k == k') = false := beq_eq_false_iff_ne.mpr (fun he => h he.symm)
    simp [mapSet, mapGet, List.find?, this]
  | cons kv rest ih =>
    by_cases hk : kv.1 == k
    · have hne : (kv.1 == k') = false := by
        refine beq_eq_false_iff_ne.mpr ?_
        rw [beq_iff_eq.mp hk]
        exact fun he => h he.symm
      simp [mapSet, hk, mapGet, List.find?, hne]
    · simp only [mapSet, hk, Bool.false_eq_true, if_false]
      by_cases hk' : kv.1 == k'
      · simp [mapGet, List.find?, hk']
      · simp only [mapGet, List.find?, hk'] at ih ⊢
        exact ih

theorem mapGet_mapDelete_ne (m : Cache) (k k' : List Char) (h : k' ≠ k) :
    mapGet (mapDelete m k) k' = mapGet m k' := by
  have := mapGet_filter (fun key => !(key == k)) m k'
  simp only [mapDelete]
  rw [this, if_pos]
  simp [beq_eq_false_iff_ne.mpr h]

/-- C5: the `fetchApi` cache contract.  A GET returns from the cache iff a
fresh (younger than `CACHE_TTL`) entry for the endpoint exists; a stale
entry is deleted and the request goes to the network, whose response is
stored; every network-served GET leaves the response cached under the
endpoint with the current timestamp; non-GET requests bypass the cache. -/
theorem fetchApi_cache_contract (m : Cache) (now : Nat) (ep : List Char) (d : Nat) :
    ((fetchApiCached m now ep true d).fromCache = true ↔
      ∃ e, mapGet m ep = some e ∧ now - e.timestamp < CACHE_TTL) ∧
    (∀ e, mapGet m ep = some e → now - e.timestamp < CACHE_TTL →
      fetchApiCached m now ep true d = ⟨e.data, true, m⟩) ∧
    (∀ e, mapGet m ep = some e → CACHE_TTL ≤ now - e.timestamp →
      fetchApiCached m now ep true d =
        ⟨d, false, setCache (mapDelete m ep) now ep d⟩) ∧
    ((fetchApiCached m now ep true d).fromCache = false →
      mapGet (fetchApiCached m now ep true d).cache ep = some ⟨d, now⟩) ∧
    (∀ method, isGetMethod method = false →
      fetchApiCached m now ep (isGetMethod method) d = ⟨d, false, m⟩) := by
  refine ⟨⟨?_, ?_⟩, ?_, ?_, ?_, ?_⟩
  · intro h
    rcases hm : mapGet m ep with _ | e
    · simp [fetchApiCached, getCached, hm] at h
    · by_cases ht : now - e.timestamp < CACHE_TTL
      · exact ⟨e, rfl, ht⟩
      · simp [fetchApiCached, getCached, hm, ht] at h
  · rintro ⟨e, hm, ht⟩
    simp [fetchApiCached, getCached, hm, ht]
  · intro e hm ht
    simp [fetchApiCached, getCached, hm, ht]
  · intro e hm ht
    simp [fetchApiCached, getCached, hm, Nat.not_lt.mpr ht]
  · intro h
    rcases hm : mapGet m ep with _ | e
    · simp [fetchApiCached, getCached, hm, setCache, mapGet_mapSet_self]
    · by_cases ht : now - e.timestamp < CACHE_TTL
      · simp [fetchApiCached, getCached, hm, ht] at h
      · simp [fetchApiCached, getCached, hm, ht, setCache, mapGet_mapSet_self]
  · intro method h
    rw [h]
    rfl

/-- Witness for `fetchApi_cache_contract` at a concrete cache state. -/
theorem fetchApi_cache_contract_witness :
    fetchApiCached [("/stats/1/dashboard".data, ⟨7, 100⟩)] 200
        "/stats/1/dashboard".data true 42 =
      ⟨7, true, [("/stats/1/dashboard".data, ⟨7, 100⟩)]⟩ ∧
    fetchApiCached [("/stats/1/dashboard".data, ⟨7, 100⟩)] 70000
        "/stats/1/dashboard".data true 42 =
      ⟨42, false, setCache (mapDelete [("/stats/1/dashboard".data, ⟨7, 100⟩)]
        "/stats/1/dashboard".data) 70000 ("/stats/1/dashboard".data) 42⟩ ∧
    fetchApiCached [("/stats/1/dashboard".data, ⟨7, 100⟩)] 200
        "/stats/1/dashboard".data (isGetMethod (some ("DELETE"))) 42 =
      ⟨42, false, [("/stats/1/dashboard".data, ⟨7, 100⟩)]⟩ := by
  refine ⟨?_, ?_, ?_⟩
  · exact (fetchApi_cache_contract [("/stats/1/dashboard".data, ⟨7, 100⟩)] 200
      "/stats/1/dashboard".data 42).2.1 ⟨7, 100⟩ (by decide) (by decide)
  · exact (fetchApi_cache_contract [("/stats/1/dashboard".data, ⟨7, 100⟩)] 70000
      "/stats/1/dashboard".data 42).2.2.1 ⟨7, 100⟩ (by decide) (by decide)
  · exact (fetchApi_cache_contract [("/stats/1/dashboard".data, ⟨7, 100⟩)] 200
      "/stats/1/dashboard".data 42).2.2.2.2 (some ("DELETE")) (by decide)

/-! ## Cache invalidation around import lifecycle (C4)

`deleteImport` (api.ts lines 333-336) runs `invalidateCache` on "/stats/"
before issuing the DELETE request (which, being non-GET, does not touch the
cache).  The progress handler of the Import page for a `completed` event
(Import.tsx lines 51-75) sets UI state and calls `loadImports()` — a GET of
`/imports/{clientId}` — and performs no cache invalidation at all.
-/

/-- Effect of `deleteImport` on the cache. -/
def deleteImportCacheEffect (m : Cache) : Cache :=
  invalidateCache (some ("/stats/".data)) m

/-- The endpoint fetched by `getImports(clientId)`. -/
def importsEndpoint (clientId : Nat) : List Char :=
  "/imports/".data ++ (toString clientId).data

/-- Effect on the cache of handling a progress event with status
`completed` in `Import.tsx`: only the `loadImports()` GET runs; no
invalidation is performed. -/
def handleCompletedCacheEffect (m : Cache) (now : Nat) (clientId : Nat)
    (importsData : Nat) : Cache :=
  (fetchApiCached m now (importsEndpoint clientId) true importsData).cache

theorem charsStarts_stats_importsEndpoint (cid : Nat) :
    charsStarts ("/stats/".data) (importsEndpoint cid) = false := by
  unfold importsEndpoint
  rw [charsStarts_append_of_le _ (by decide)]
  decide

theorem fetchApiCached_cache_frame (m : Cache) (now : Nat) (ep : List Char)
    (get : Bool) (d : Nat) (k : List Char) (h : k ≠ ep) :
    mapGet (fetchApiCached m now ep get d).cache k = mapGet m k := by
  unfold fetchApiCached
  by_cases hg : get
  · simp only [hg, if_true]
    rcases hm : mapGet m ep with _ | e
    · simp only [getCached, hm, setCache]
      rw [mapGet_mapSet_ne _ _ _ _ h, mapGet_mapDelete_ne _ _ _ h]
    · by_cases ht : now - e.timestamp < CACHE_TTL
      · simp [getCached, hm, ht]
      · simp only [getCached, hm, ht, if_false, setCache]
        rw [mapGet_mapSet_ne _ _ _ _ h, mapGet_mapDelete_ne _ _ _ h]
  · simp [hg]

/-- C4 counterexample: a `/stats/...` response cached at t = 0 is still
served from the cache at t = 1000 ms after a `completed` progress event has
been handled (at t = 5) — handling completion does not invalidate the
cache, contradicting the claim. -/
theorem cache_served_after_completed :
    (fetchApiCached
        (handleCompletedCacheEffect [("/stats/1/dashboard".data, ⟨7, 0⟩)] 5 1 99)
        1000 ("/stats/1/dashboard".data) true 42).fromCache = true ∧
    (fetchApiCached
        (handleCompletedCacheEffect [("/stats/1/dashboard".data, ⟨7, 0⟩)] 5 1 99)
        1000 ("/stats/1/dashboard".data) true 42).data = 7 := by decide

/-- C4 amended: after a `deleteImport` call every cached `/stats/...` entry
is gone, so a subsequent aggregation GET is not served from the cache; but
handling a `completed` progress event leaves every `/stats/...` cache entry
unchanged (no invalidation happens), so a fresh previously cached entry is
still served until its TTL expires. -/
theorem cache_invalidation_amended (m : Cache) (now now' : Nat) (k : List Char)
    (d cid importsData : Nat) (hk : charsStarts ("/stats/".data) k = true) :
    mapGet (deleteImportCacheEffect m) k = none ∧
    (fetchApiCached (deleteImportCacheEffect m) now k true d).fromCache = false ∧
    mapGet (handleCompletedCacheEffect m now' cid importsData) k = mapGet m k := by
  have hdel : mapGet (deleteImportCacheEffect m) k = none := by
    have := (invalidateCache_spec ("/stats/".data) m k).1
    rw [hk] at this
    simpa [deleteImportCacheEffect] using this
  refine ⟨hdel, ?_, ?_⟩
  · simp [fetchApiCached, getCached, hdel]
  · apply fetchApiCached_cache_frame
    intro he
    rw [he, charsStarts_stats_importsEndpoint] at hk
    exact Bool.false_ne_true hk

/-- Witness for `cache_invalidation_amended` at a concrete cache state. -/
theorem cache_invalidation_amended_witness :
    mapGet (deleteImportCacheEffect [("/stats/1/dashboard".data, ⟨7, 0⟩)])
      "/stats/1/dashboard".data = none ∧
    (fetchApiCached (deleteImportCacheEffect [("/stats/1/dashboard".data, ⟨7, 0⟩)])
      50 ("/stats/1/dashboard".data) true 42).fromCache = false ∧
    mapGet (handleCompletedCacheEffect [("/stats/1/dashboard".data, ⟨7, 0⟩)] 5 1 99)
      "/stats/1/dashboard".data = mapGet [("/stats/1/dashboard".data, ⟨7, 0⟩)]
      "/stats/1/dashboard".data :=
  cache_invalidation_amended [("/stats/1/dashboard".data, ⟨7, 0⟩)] 50 5
    "/stats/1/dashboard".data 42 1 99 (by decide)

/-! ## `fetchApi` retry loop (api.ts second variant, lines 243-277)

After a cache miss, `fetchApi` runs `for (attempt = 1; attempt <= retries;
attempt++)`.  Per attempt the `fetch` either resolves to a response
(`ok`, `status`, error `detail`, payload) or throws (a `TypeError` marks a
network error).  A non-ok response with `status >= 500` and `attempt <
retries` retries after a sleep, as does a thrown `TypeError`; everything
else returns or throws immediately.
-/

/-- What one `fetch` attempt produced. -/
inductive AttemptResult
  | response (ok : Bool) (status : Nat) (detail : String) (data : Nat)
  | thrown (isTypeError : Bool)
  deriving DecidableEq, Repr

/-- How the `fetchApi` call ends. -/
inductive FetchResult
  | ok (d : Nat)
  | errorThrown (msg : String)
  | rethrown (isTypeError : Bool)
  | unavailable
  deriving DecidableEq, Repr

/-- An attempt after which the loop retries: a non-ok response with status
at least 500, or a thrown `TypeError`. -/
def retryableAttempt : AttemptResult → Bool
  | .response ok status _ _ => !ok && decide (500 ≤ status)
  | .thrown isTypeError => isTypeError

/-- The retry loop: returns the result together with the number of the
attempt on which the call ended. -/
def fetchLoop : List AttemptResult → Nat → Nat → FetchResult × Nat
  | [], attempt, _ => (FetchResult.unavailable, attempt - 1)
  | a :: rest, attempt, retries =>
    if retries < attempt then (FetchResult.unavailable, attempt - 1)
    else match a with
      | .response ok status detail data =>
        if ok then (FetchResult.ok data, attempt)
        else if 500 ≤ status ∧ attempt < retries then fetchLoop rest (attempt + 1) retries
        else (FetchResult.errorThrown detail, attempt)
      | .thrown isTypeError =>
        if attempt < retries ∧ isTypeError then fetchLoop rest (attempt + 1) retries
        else (FetchResult.rethrown isTypeError, attempt)

/-- The function `fetchApi` with the default `retries = 3`. -/
def fetchApiRetry (attempts : List AttemptResult) : FetchResult × Nat :=
  fetchLoop attempts 1 3

theorem fetchLoop_cons_response (ok : Bool) (status : Nat) (detail : String)
    (data : Nat) (rest : List AttemptResult) (attempt retries : Nat) :
    fetchLoop (.response ok status detail data :: rest) attempt retries =
      if retries < attempt then (FetchResult.unavailable, attempt - 1)
      else if ok then (FetchResult.ok data, attempt)
      else if 500 ≤ status ∧ attempt < retries then fetchLoop rest (attempt + 1) retries
      else (FetchResult.errorThrown detail, attempt) := rfl

theorem fetchLoop_cons_thrown (isTE : Bool) (rest : List AttemptResult)
    (attempt retries : Nat) :
    fetchLoop (.thrown isTE :: rest) attempt retries =
      if retries < attempt then (FetchResult.unavailable, attempt - 1)
      else if attempt < retries ∧ isTE = true then fetchLoop rest (attempt + 1) retries
      else (FetchResult.rethrown isTE, attempt) := rfl

theorem fetchLoop_used_le (attempts : List AttemptResult) (attempt retries : Nat)
    (h : attempt ≤ retries + 1) : (fetchLoop attempts attempt retries).2 ≤ retries := by
  induction attempts generalizing attempt with
  | nil =>
    simp only [fetchLoop]
    omega
  | cons a rest ih =>
    have hle' : attempt - 1 ≤ retries := by omega
    cases a with
    | response ok status detail data =>
      rw [fetchLoop_cons_response]
      by_cases hr : retries < attempt
      · rw [if_pos hr]
        exact hle'
      · have hle : attempt ≤ retries := Nat.not_lt.mp hr
        rw [if_neg hr]
        by_cases hok : ok
        · rw [if_pos hok]
          exact hle
        · rw [if_neg hok]
          by_cases hcond : 500 ≤ status ∧ attempt < retries
          · rw [if_pos hcond]
            exact ih (attempt + 1) (by omega)
          · rw [if_neg hcond]
            exact hle
    | thrown isTE =>
      rw [fetchLoop_cons_thrown]
      by_cases hr : retries < attempt
      · rw [if_pos hr]
        exact hle'
      · have hle : attempt ≤ retries := Nat.not_lt.mp hr
        rw [if_neg hr]
        by_cases hcond : attempt < retries ∧ isTE = true
        · rw [if_pos hcond]
          exact ih (attempt + 1) (by omega)
        · rw [if_neg hcond]
          exact hle

theorem fetchLoop_retried_retryable (attempts : List AttemptResult)
    (attempt retries : Nat) (i : Nat)
    (h : attempt + i < (fetchLoop attempts attempt retries).2) :
    ∃ a, attempts.get? i = some a ∧ retryableAttempt a = true := by
  induction attempts generalizing attempt i with
  | nil =>
    exfalso
    exact Nat.not_lt.mpr (Nat.le_trans (Nat.sub_le _ _) (Nat.le_add_right _ _)) h
  | cons a rest ih =>
    cases a with
    | response ok status detail data =>
      rw [fetchLoop_cons_response] at h
      by_cases hr : retries < attempt
      · rw [if_pos hr] at h
        simp only at h
        omega
      · rw [if_neg hr] at h
        by_cases hok : ok
        · rw [if_pos hok] at h
          exact absurd h (Nat.not_lt.mpr (Nat.le_add_right _ _))
        · rw [if_neg hok] at h
          by_cases hcond : 500 ≤ status ∧ attempt < retries
          · rw [if_pos hcond] at h
            cases i with
            | zero =>
              refine ⟨.response ok status detail data, rfl, ?_⟩
              simp [retryableAttempt, hok, hcond.1]
            | succ j =>
              have hlt : (attempt + 1) + j < (fetchLoop rest (attempt + 1) retries).2 := by
                omega
              exact ih (attempt + 1) j hlt
          · rw [if_neg hcond] at h
            exact absurd h (Nat.not_lt.mpr (Nat.le_add_right _ _))
    | thrown isTE =>
      rw [fetchLoop_cons_thrown] at h
      by_cases hr : retries < attempt
      · rw [if_pos hr] at h
        simp only at h
        omega
      · rw [if_neg hr] at h
        by_cases hcond : attempt < retries ∧ isTE = true
        · rw [if_pos hcond] at h
          cases i with
          | zero => exact ⟨.thrown isTE, rfl, hcond.2⟩
          | succ j =>
            have hlt : (attempt + 1) + j < (fetchLoop rest (attempt + 1) retries).2 := by
              omega
            exact ih (attempt + 1) j hlt
        · rw [if_neg hcond] at h
          exact absurd h (Nat.not_lt.mpr (Nat.le_add_right _ _))

/-- C6: the `fetchApi` retry policy.  A non-ok response with status below
500 throws its detail message immediately on attempt 1; the call never uses
more than 3 attempts; every attempt before the final one was a retryable
failure (status ≥ 500 or a thrown `TypeError`); and three consecutive
status ≥ 500 responses exhaust all attempts and throw the last detail. -/
theorem fetchApi_retry_policy (attempts : List AttemptResult) :
    (∀ status detail data rest, status < 500 →
      attempts = .response false status detail data :: rest →
      fetchApiRetry attempts = (FetchResult.errorThrown detail, 1)) ∧
    (fetchApiRetry attempts).2 ≤ 3 ∧
    (∀ i, 1 + i < (fetchApiRetry attempts).2 →
      ∃ a, attempts.get? i = some a ∧ retryableAttempt a = true) ∧
    (∀ s1 d1 x1 s2 d2 x2 s3 d3 x3 rest,
      500 ≤ s1 → 500 ≤ s2 → 500 ≤ s3 →
      attempts = .response false s1 d1 x1 :: .response false s2 d2 x2 ::
        .response false s3 d3 x3 :: rest →
      fetchApiRetry attempts = (FetchResult.errorThrown d3, 3)) := by
  refine ⟨?_, ?_, ?_, ?_⟩
  · intro status detail data rest hs ha
    subst ha
    simp [fetchApiRetry, fetchLoop, Nat.not_le.mpr hs]
  · exact fetchLoop_used_le attempts 1 3 (by omega)
  · exact fun i => fetchLoop_retried_retryable attempts 1 3 i
  · intro s1 d1 x1 s2 d2 x2 s3 d3 x3 rest h1 h2 h3 ha
    subst ha
    simp [fetchApiRetry, fetchLoop, h1, h2, h3]

/-- Witness for `fetchApi_retry_policy` at concrete attempt sequences. -/
theorem fetchApi_retry_policy_witness :
    fetchApiRetry [.response false 404 ("Not found") 0] =
      (FetchResult.errorThrown ("Not found"), 1) ∧
    (fetchApiRetry [.thrown true, .response true 200 ("") 5]).2 ≤ 3 ∧
    fetchApiRetry
      [.response false 500 ("a") 0, .response false 502 ("b") 0,
       .response false 503 ("c") 0] = (FetchResult.errorThrown ("c"), 3) := by
  refine ⟨?_, ?_, ?_⟩
  · exact (fetchApi_retry_policy [.response false 404 ("Not found") 0]).1
      404 ("Not found") 0 [] (by omega) rfl
  · exact (fetchApi_retry_policy [.thrown true, .response true 200 ("") 5]).2.1
  · exact (fetchApi_retry_policy
      [.response false 500 ("a") 0, .response false 502 ("b") 0,
       .response false 503 ("c") 0]).2.2.2 500 ("a") 0 502 ("b") 0 503 ("c") 0 []
      (by omega) (by omega) (by omega) rfl

/-! ## `subscribeToImportProgress` (api.ts second variant, lines 341-359)

    eventSource.onmessage = (event) => {
      const data = JSON.parse(event.data);
      onProgress(data);
      if (data.status === "completed" || data.status === "error") {
        eventSource.close();
      }
    };

A closed `EventSource` delivers no further messages, so we model the
subscription as a fold over the incoming event sequence carrying a
`closed` flag and the list of events passed to `onProgress`.
-/

/-- The `status` field of an `ImportProgress` payload. -/
inductive ImportStatus
  | waiting | counting | importing | completed | error
  deriving DecidableEq, Repr

/-- The `ImportProgress` payload (api.ts lines 504-514). -/
structure ImportProgressMsg where
  import_id : Nat
  status : ImportStatus
  total_lines : Nat
  processed_lines : Nat
  imported : Nat
  skipped_duplicates : Nat
  skipped_filtered : Nat
  percent : Nat
  error : Option String
  deriving DecidableEq, Repr

/-- The terminality test of the `onmessage` handler:
`data.status` equal to "completed" or to "error". -/
def isTerminalStatus (s : ImportStatus) : Bool :=
  s == .completed || s == .error

/-- Subscription state: whether `eventSource.close()` has run, and the
events passed to `onProgress` so far. -/
structure SubscriptionState where
  closed : Bool
  delivered : List ImportProgressMsg
  deriving DecidableEq, Repr

/-- The `onmessage` handler: once closed, no event is delivered; otherwise
`onProgress` fires and a terminal status closes the source. -/
def onMessage (st : SubscriptionState) (e : ImportProgressMsg) : SubscriptionState :=
  if st.closed then st
  else ⟨isTerminalStatus e.status, st.delivered ++ [e]⟩

/-- The subscription applied to a whole incoming event sequence. -/
def runSubscription (events : List ImportProgressMsg) : SubscriptionState :=
  events.foldl onMessage ⟨false, []⟩

/-- The prefix of the event sequence up to and including its first
terminal event. -/
def upToFirstTerminal : List ImportProgressMsg → List ImportProgressMsg
  | [] => []
  | e :: rest =>
    if isTerminalStatus e.status then [e] else e :: upToFirstTerminal rest

theorem foldl_onMessage_closed (events : List ImportProgressMsg)
    (st : SubscriptionState) (h : st.closed = true) :
    events.foldl onMessage st = st := by
  induction events with
  | nil => rfl
  | cons e rest ih =>
    have : onMessage st e = st := by simp [onMessage, h]
    simp [List.foldl_cons, this, ih]

theorem runSubscription_characterised (events : List ImportProgressMsg)
    (acc : List ImportProgressMsg) :
    (events.foldl onMessage ⟨false, acc⟩).delivered = acc ++ upToFirstTerminal events ∧
    (events.foldl onMessage ⟨false, acc⟩).closed =
      events.any (fun e => isTerminalStatus e.status) := by
  induction events generalizing acc with
  | nil => simp [upToFirstTerminal]
  | cons e rest ih =>
    by_cases ht : isTerminalStatus e.status
    · have hstep : onMessage ⟨false, acc⟩ e = ⟨true, acc ++ [e]⟩ := by
        simp [onMessage, ht]
      have habs := foldl_onMessage_closed rest ⟨true, acc ++ [e]⟩ rfl
      simp [List.foldl_cons, hstep, habs, upToFirstTerminal, ht]
    · have hstep : onMessage ⟨false, acc⟩ e = ⟨false, acc ++ [e]⟩ := by
        simp [onMessage]
        simpa using ht
      have := ih (acc ++ [e])
      simp [List.foldl_cons, hstep, this.1, this.2, upToFirstTerminal, ht,
        Bool.eq_false_iff.mpr ht]

theorem upToFirstTerminal_one_terminal (events : List ImportProgressMsg)
    (h : ∃ e ∈ events, isTerminalStatus e.status = true) :
    ((upToFirstTerminal events).filter
      (fun e => isTerminalStatus e.status)).length = 1 := by
  induction events with
  | nil => simp at h
  | cons e rest ih =>
    by_cases ht : isTerminalStatus e.status
    · simp [upToFirstTerminal, ht]
    · rcases h with ⟨f, hf, hft⟩
      rcases List.mem_cons.mp hf with hfe | hfr
      · rw [hfe] at hft
        exact absurd hft ht
      · simp only [upToFirstTerminal, ht, Bool.false_eq_true, if_false]
        rw [List.filter_cons_of_neg (by simpa using ht)]
        exact ih ⟨f, hfr, hft⟩

/-- C1: `onProgress` is invoked exactly for the prefix of the event
sequence up to and including the first terminal (`completed`/`error`)
event; after that event the source is closed and no later event is
delivered, so when the sequence contains a terminal event the subscriber
receives exactly one. -/
theorem subscription_terminal_spec (events : List ImportProgressMsg) :
    (runSubscription events).delivered = upToFirstTerminal events ∧
    ((∃ e ∈ events, isTerminalStatus e.status = true) →
      (runSubscription events).closed = true ∧
      (((runSubscription events).delivered.filter
        (fun e => isTerminalStatus e.status)).length = 1)) := by
  have hc := runSubscription_characterised events []
  refine ⟨by simpa [runSubscription] using hc.1, fun h => ⟨?_, ?_⟩⟩
  · rw [runSubscription, hc.2]
    rcases h with ⟨e, he, ht⟩
    exact List.any_eq_true.mpr ⟨e, he, ht⟩
  · rw [runSubscription, hc.1]
    simpa using upToFirstTerminal_one_terminal events h

/-- Witness for `subscription_terminal_spec`: a three-event stream whose
second event is terminal; the third is never delivered. -/
theorem subscription_terminal_spec_witness :
    (runSubscription
      [⟨1, .importing, 10, 5, 3, 1, 1, 50, none⟩,
       ⟨1, .completed, 10, 10, 7, 2, 1, 100, none⟩,
       ⟨1, .importing, 10, 10, 7, 2, 1, 100, none⟩]).delivered =
      [⟨1, .importing, 10, 5, 3, 1, 1, 50, none⟩, ⟨1, .completed, 10, 10, 7, 2, 1, 100, none⟩] ∧
    (runSubscription
      [⟨1, .importing, 10, 5, 3, 1, 1, 50, none⟩,
       ⟨1, .completed, 10, 10, 7, 2, 1, 100, none⟩,
       ⟨1, .importing, 10, 10, 7, 2, 1, 100, none⟩]).closed = true := by
  constructor
  · rw [(subscription_terminal_spec
      [⟨1, .importing, 10, 5, 3, 1, 1, 50, none⟩,
       ⟨1, .completed, 10, 10, 7, 2, 1, 100, none⟩,
       ⟨1, .importing, 10, 10, 7, 2, 1, 100, none⟩]).1]
    decide
  · exact ((subscription_terminal_spec
      [⟨1, .importing, 10, 5, 3, 1, 1, 50, none⟩,
       ⟨1, .completed, 10, 10, 7, 2, 1, 100, none⟩,
       ⟨1, .importing, 10, 10, 7, 2, 1, 100, none⟩]).2 (by decide)).1

/-! ## Pagination of the Pages component (second variant of part_003)

`limit = 50`.  A client or filter change runs `setOffset(0)`; the
previous-page button runs `setOffset(Math.max(0, offset - limit))` and is
disabled when `offset === 0`; the next-page button runs
`setOffset(offset + limit)` and is disabled when
`currentPage >= totalPages`, where `currentPage = Math.floor(offset /
limit) + 1` and `totalPages = Math.ceil(total / limit)`.
-/

/-- The user interactions that change the `offset` state.  `next` carries
the `total` state at the moment of the click, which decides whether the
button was enabled. -/
inductive PagesAction
  | clientOrFilterChange
  | prevPage
  | nextPage (total : Nat)
  deriving DecidableEq, Repr

/-- Embedding of JS `Math.ceil(total / limit)` for `limit = 50`. -/
def totalPages (total : Nat) : Nat := (total + 49) / 50

/-- One transition of the `offset` state; a disabled button leaves the
state unchanged. -/
def pagesOffsetStep (offset : Int) : PagesAction → Int
  | .clientOrFilterChange => 0
  | .prevPage => if offset == 0 then offset else max 0 (offset - 50)
  | .nextPage total =>
    if offset / 50 + 1 < (totalPages total : Int) then offset + 50 else offset

/-- The `offset` state after a sequence of interactions, starting from the
initial `useState(0)`. -/
def pagesOffsetRun (actions : List PagesAction) : Int :=
  actions.foldl pagesOffsetStep 0

theorem pagesOffsetStep_invariant (offset : Int) (a : PagesAction)
    (h0 : 0 ≤ offset) (h50 : (50 : Int) ∣ offset) :
    0 ≤ pagesOffsetStep offset a ∧ (50 : Int) ∣ pagesOffsetStep offset a := by
  cases a with
  | clientOrFilterChange => exact ⟨le_refl 0, Dvd.intro 0 rfl⟩
  | prevPage =>
    by_cases hz : offset = 0
    · simp [pagesOffsetStep, hz]
    · have hbeq : (offset == 0) = false := by
        simpa using hz
      have hge : (50 : Int) ≤ offset := by
        rcases h50 with ⟨c, hc⟩
        have hc0 : 0 < c := by
          by_contra hcn
          push_neg at hcn
          have : offset ≤ 0 := by
            rw [hc]
            exact mul_nonpos_of_nonneg_of_nonpos (by norm_num) hcn
          omega
        rw [hc]
        nlinarith
      have hmax : max 0 (offset - 50) = offset - 50 := by omega
      simp only [pagesOffsetStep, hbeq, Bool.false_eq_true, if_false, hmax]
      exact ⟨by omega, dvd_sub h50 ⟨1, by norm_num⟩⟩
  | nextPage total =>
    by_cases hlt : offset / 50 + 1 < (totalPages total : Int)
    · simp only [pagesOffsetStep, hlt, if_true]
      exact ⟨by omega, dvd_add h50 ⟨1, by norm_num⟩⟩
    · simp only [pagesOffsetStep, hlt, if_false]
      exact ⟨h0, h50⟩

theorem pagesOffsetRun_foldl_invariant (actions : List PagesAction) (offset : Int)
    (h0 : 0 ≤ offset) (h50 : (50 : Int) ∣ offset) :
    0 ≤ actions.foldl pagesOffsetStep offset ∧
    (50 : Int) ∣ actions.foldl pagesOffsetStep offset := by
  induction actions generalizing offset with
  | nil => exact ⟨h0, h50⟩
  | cons a rest ih =>
    have hstep := pagesOffsetStep_invariant offset a h0 h50
    simpa [List.foldl_cons] using ih (pagesOffsetStep offset a) hstep.1 hstep.2

/-- C10: every reachable `offset` of the Pages component is a nonnegative
multiple of the limit 50; the previous-page action (enabled only for
`offset > 0`) replaces it with `max 0 (offset - 50)` and the next-page
action (enabled only while `floor(offset/50) + 1 < ceil(total/50)`)
replaces it with `offset + 50`. -/
theorem pages_offset_spec (actions : List PagesAction) :
    (0 ≤ pagesOffsetRun actions ∧ (50 : Int) ∣ pagesOffsetRun actions) ∧
    (∀ o : Int, 0 < o → pagesOffsetStep o .prevPage = max 0 (o - 50)) ∧
    pagesOffsetStep 0 .prevPage = 0 ∧
    (∀ (o : Int) (t : Nat), o / 50 + 1 < (totalPages t : Int) →
      pagesOffsetStep o (.nextPage t) = o + 50) ∧
    (∀ (o : Int) (t : Nat), ¬(o / 50 + 1 < (totalPages t : Int)) →
      pagesOffsetStep o (.nextPage t) = o) ∧
    (∀ o : Int, pagesOffsetStep o .clientOrFilterChange = 0) := by
  refine ⟨?_, ?_, rfl, ?_, ?_, fun o => rfl⟩
  · exact pagesOffsetRun_foldl_invariant actions 0 (le_refl 0) ⟨0, rfl⟩
  · intro o ho
    have : (o == 0) = false := by simpa using (by omega : o ≠ 0)
    simp [pagesOffsetStep, this]
  · intro o t h
    simp [pagesOffsetStep, h]
  · intro o t h
    simp [pagesOffsetStep, h]

/-- Witness for `pages_offset_spec` at a concrete interaction sequence. -/
theorem pages_offset_spec_witness :
    (0 ≤ pagesOffsetRun [.nextPage 120, .nextPage 120, .prevPage] ∧
      (50 : Int) ∣ pagesOffsetRun [.nextPage 120, .nextPage 120, .prevPage]) ∧
    pagesOffsetStep 50 .prevPage = max 0 (50 - 50) ∧
    pagesOffsetStep 0 (.nextPage 120) = 0 + 50 := by
  refine ⟨(pages_offset_spec [.nextPage 120, .nextPage 120, .prevPage]).1, ?_, ?_⟩
  · exact (pages_offset_spec []).2.1 50 (by omega)
  · exact (pages_offset_spec []).2.2.2.1 0 120 (by decide)

/-! ## Period-comparison percentage delta (C2)

The `/stats/{clientId}/compare` computation runs in the backend, which is
not among these sources; the frontend only declares the result type
(`PeriodComparison`, api.ts lines 571-586) and renders
`crawl_delta_percent` verbatim (Compare.tsx lines 170-192).
-/

/-- Modelled from the spec: the backend period-comparison computation
producing `crawl_delta_percent` is not part of the frontend sources.  Per
the spec, the percentage delta between the total
crawl counts of periods A and B is undefined/unbounded when the total of period A is zero, and
must be surfaced as a distinguished value (`none`) rather than as `0%` or
infinity; otherwise it is the finite relative change in percent. -/
def crawlDeltaPercent (totalA totalB : Nat) : Option Int :=
  if totalA = 0 then none
  else some (((totalB : Int) - (totalA : Int)) * 100 / (totalA : Int))

/-- C2: when the total of period A is 0 and the total of period B is positive, the
reported percentage delta is the distinguished undefined value, which no
comparison with a nonzero period A total can produce, and which differs
from a zero delta. -/
theorem crawl_delta_percent_undefined (n : Nat) (_h : 0 < n) :
    crawlDeltaPercent 0 n = none ∧
    (∀ a b : Nat, a ≠ 0 → crawlDeltaPercent a b ≠ crawlDeltaPercent 0 n) ∧
    crawlDeltaPercent 0 n ≠ some 0 := by
  refine ⟨rfl, ?_, by simp [crawlDeltaPercent]⟩
  intro a b ha
  simp [crawlDeltaPercent, ha]

/-- Witness for `crawl_delta_percent_undefined` at `n = 5`. -/
theorem crawl_delta_percent_undefined_witness :
    crawlDeltaPercent 0 5 = none ∧ crawlDeltaPercent 0 5 ≠ some 0 := by
  have h := crawl_delta_percent_undefined 5 (by omega)
  exact ⟨h.1, h.2.2⟩

/-! ## ImportJob counter invariant (C3)

The importer producing the `ImportProgress` counters runs in the backend,
which is not among these sources; the frontend only declares the payload
shape (api.ts lines 504-514).
-/

/-- Modelled from the spec: how the Import Session Manager accounts for
one processed line — persisted, skipped as a duplicate, or skipped as
filtered (per §4.2 a malformed line is counted as processed-but-filtered). -/
inductive LineOutcome
  | imported
  | duplicate
  | filtered
  deriving DecidableEq, Repr

/-- Modelled from the spec: the counter block of an `ImportJob`. -/
structure ImportCounters where
  total_lines : Nat
  processed_lines : Nat
  imported : Nat
  skipped_duplicates : Nat
  skipped_filtered : Nat
  deriving DecidableEq, Repr

/-- Modelled from the spec: counters after the counting phase has set
`total_lines` and before any line is processed. -/
def initCounters (total : Nat) : ImportCounters := ⟨total, 0, 0, 0, 0⟩

/-- Modelled from the spec: processing one line increments
`processed_lines` and exactly one of the three outcome counters. -/
def applyLine (c : ImportCounters) : LineOutcome → ImportCounters
  | .imported =>
    { c with processed_lines := c.processed_lines + 1, imported := c.imported + 1 }
  | .duplicate =>
    { c with processed_lines := c.processed_lines + 1,
             skipped_duplicates := c.skipped_duplicates + 1 }
  | .filtered =>
    { c with processed_lines := c.processed_lines + 1,
             skipped_filtered := c.skipped_filtered + 1 }

/-- Modelled from the spec: every counter state observable while the
job imports `lines` (the initial state and the state after each line),
i.e. the states that progress events can report. -/
def importStates (lines : List LineOutcome) : List ImportCounters :=
  List.scanl applyLine (initCounters lines.length) lines

/-- Modelled from the spec: the terminal (completed) counter state after
all lines are processed. -/
def finalCounters (lines : List LineOutcome) : ImportCounters :=
  List.foldl applyLine (initCounters lines.length) lines

theorem scanl_applyLine_invariant (lines : List LineOutcome) :
    ∀ c : ImportCounters,
      c.imported + c.skipped_duplicates + c.skipped_filtered = c.processed_lines →
      c.processed_lines + lines.length ≤ c.total_lines →
      ∀ st ∈ List.scanl applyLine c lines,
        st.imported + st.skipped_duplicates + st.skipped_filtered = st.processed_lines ∧
        st.processed_lines ≤ st.total_lines := by
  induction lines with
  | nil =>
    intro c hsum hrem st hst
    simp only [List.scanl_nil, List.mem_singleton] at hst
    subst hst
    exact ⟨hsum, by simpa using hrem⟩
  | cons l rest ih =>
    intro c hsum hrem st hst
    simp only [List.length_cons] at hrem
    simp only [List.scanl_cons, List.singleton_append, List.mem_cons] at hst
    rcases hst with h1 | h2
    · subst h1
      exact ⟨hsum, by omega⟩
    · refine ih (applyLine c l) ?_ ?_ st h2
      · cases l <;> simp [applyLine] <;> omega
      · cases l <;> simp [applyLine] <;> omega

theorem foldl_applyLine_counts (lines : List LineOutcome) (c : ImportCounters) :
    (List.foldl applyLine c lines).processed_lines = c.processed_lines + lines.length ∧
    (List.foldl applyLine c lines).imported +
      (List.foldl applyLine c lines).skipped_duplicates +
      (List.foldl applyLine c lines).skipped_filtered =
      c.imported + c.skipped_duplicates + c.skipped_filtered + lines.length ∧
    (List.foldl applyLine c lines).total_lines = c.total_lines := by
  induction lines generalizing c with
  | nil => simp
  | cons l rest ih =>
    have := ih (applyLine c l)
    refine ⟨?_, ?_, ?_⟩
    · rw [List.foldl_cons, this.1]
      cases l <;> simp [applyLine] <;> omega
    · rw [List.foldl_cons, this.2.1]
      cases l <;> simp [applyLine] <;> omega
    · rw [List.foldl_cons, this.2.2]
      cases l <;> simp [applyLine]

/-- C3: in every state observable during an import the counters satisfy
`imported + skipped_duplicates + skipped_filtered ≤ processed_lines ≤
total_lines`, and in the completed state every input line is accounted
for: the three counters sum exactly to `total_lines`. -/
theorem import_counters_invariant (lines : List LineOutcome) :
    (∀ st ∈ importStates lines,
      st.imported + st.skipped_duplicates + st.skipped_filtered ≤ st.processed_lines ∧
      st.processed_lines ≤ st.total_lines) ∧
    (finalCounters lines).imported + (finalCounters lines).skipped_duplicates +
      (finalCounters lines).skipped_filtered = (finalCounters lines).total_lines := by
  constructor
  · intro st hst
    have := scanl_applyLine_invariant lines (initCounters lines.length)
      (by simp [initCounters]) (by simp [initCounters]) st hst
    exact ⟨Nat.le_of_eq this.1, this.2⟩
  · have := foldl_applyLine_counts lines (initCounters lines.length)
    unfold finalCounters
    rw [this.2.1, this.2.2]
    simp [initCounters]

/-- Witness for `import_counters_invariant` on a three-line input with
one imported, one filtered and one duplicate line. -/
theorem import_counters_invariant_witness :
    ((finalCounters [.imported, .filtered, .duplicate]).imported +
      (finalCounters [.imported, .filtered, .duplicate]).skipped_duplicates +
      (finalCounters [.imported, .filtered, .duplicate]).skipped_filtered =
      (finalCounters [.imported, .filtered, .duplicate]).total_lines) ∧
    ((initCounters 3).imported + (initCounters 3).skipped_duplicates +
      (initCounters 3).skipped_filtered ≤ (initCounters 3).processed_lines ∧
      (initCounters 3).processed_lines ≤ (initCounters 3).total_lines) := by
  refine ⟨(import_counters_invariant [.imported, .filtered, .duplicate]).2, ?_⟩
  exact (import_counters_invariant [.imported, .filtered, .duplicate]).1
    (initCounters 3) (by decide)

end SeoLog
